import Mathlib

/-!
Verification model of rattler's `MatchSpecConstraints`
(`crates/rattler/src/match_spec_constraints.rs`): a boolean algebra over
package constraints in disjunctive normal form, used as the version-set
primitive of a PubGrub-style dependency resolver.

The DNF layer (`MatchSpecElement`, `MatchSpecConstraints` and their
operations `empty`, `full`, `singleton`, `complement`, `intersection`,
`contains`) is translated directly from the source file.  The `Range`
scalar primitive is an external collaborator of that file (it lives
elsewhere in the crate) and is modelled from the spec, as are the
hash-derived canonical ordering key and the derived `union`.
-/

namespace Rattler

/-- Modelled from the spec: the external `Range<T>` primitive (spec §3) —
a subset of a totally ordered scalar domain with operations `none`, `any`,
`equal`, `intersection`, `negate`, `contains` and structural equality,
where `none()` is absorbing for intersection and `any()` is its identity.
Both scalar domains used by the algebra (version, build number) are
modelled as `ℕ`.  The representation is canonical: every range is either
a finite set of scalars or the complement of a finite set — exactly the
closure of `none`/`any`/`equal` under `intersection` and `negate` — so
structural equality coincides with semantic equality, as the spec's
canonicalization requirements demand. -/
inductive CRange where
  | fin (s : Finset ℕ)
  | cof (s : Finset ℕ)
deriving DecidableEq

namespace CRange

/-- `Range::none()`: the empty range. -/
def none : CRange := .fin ∅

/-- `Range::any()`: the universal range. -/
def any : CRange := .cof ∅

/-- `Range::equal(v)`: the singleton range. -/
def equal (v : ℕ) : CRange := .fin {v}

/-- `Range::negate()`: complement within the scalar domain. -/
def negate : CRange → CRange
  | .fin s => .cof s
  | .cof s => .fin s

/-- `Range::intersection(other)`. -/
def intersection : CRange → CRange → CRange
  | .fin s, .fin t => .fin (s ∩ t)
  | .fin s, .cof t => .fin (s \ t)
  | .cof s, .fin t => .fin (t \ s)
  | .cof s, .cof t => .cof (s ∪ t)

/-- `Range::contains(v)`: membership test. -/
def contains : CRange → ℕ → Bool
  | .fin s, v => decide (v ∈ s)
  | .cof s, v => decide (v ∉ s)

theorem contains_negate (r : CRange) (v : ℕ) :
    (r.negate).contains v = !(r.contains v) := by
  cases r <;> simp [contains, negate]

theorem contains_intersection (a b : CRange) (v : ℕ) :
    (a.intersection b).contains v = (a.contains v && b.contains v) := by
  cases a with
  | fin s =>
    cases b with
    | fin t => simp [contains, intersection, Finset.mem_inter]
    | cof t => simp [contains, intersection, Finset.mem_sdiff]
  | cof s =>
    cases b with
    | fin t => simp [contains, intersection, Finset.mem_sdiff, Bool.and_comm]
    | cof t => simp [contains, intersection, Finset.mem_union, not_or]

theorem contains_none (v : ℕ) : CRange.none.contains v = false := by
  simp [contains, none]

theorem contains_any (v : ℕ) : CRange.any.contains v = true := by
  simp [contains, any]

theorem negate_negate (r : CRange) : r.negate.negate = r := by
  cases r <;> rfl

theorem intersection_any (r : CRange) : r.intersection CRange.any = r := by
  cases r <;> simp [intersection, any]

/-- Over the infinite scalar domain every finite set misses a point. -/
theorem finset_exists_not_mem (s : Finset ℕ) : ∃ v, v ∉ s := by
  refine ⟨s.sup id + 1, fun h => ?_⟩
  have h2 := Finset.le_sup (f := id) h
  simp only [id] at h2
  omega

/-- Canonicity: a range that contains no scalar is structurally `none`. -/
theorem eq_none_of_forall_not_contains {r : CRange}
    (h : ∀ v, r.contains v = false) : r = CRange.none := by
  cases r with
  | fin s =>
    have hs : s = ∅ := by
      apply Finset.eq_empty_iff_forall_not_mem.2
      intro v hv
      have := h v
      simp [contains] at this
      exact this hv
    simp [none, hs]
  | cof s =>
    obtain ⟨v, hv⟩ := finset_exists_not_mem s
    have := h v
    simp [contains] at this
    exact absurd this hv

/-- Canonicity: a range that is not structurally `none` contains a scalar. -/
theorem exists_contains_of_ne_none {r : CRange} (h : r ≠ CRange.none) :
    ∃ v, r.contains v = true := by
  by_contra hc
  push_neg at hc
  exact h (eq_none_of_forall_not_contains (fun v => by
    have := hc v
    cases hr : r.contains v
    · rfl
    · exact absurd hr this))

end CRange

/-- The candidate shape consumed by the algebra.  Of the Rust
`PackageRecord` only the two matched scalar attributes are modelled
(spec §1/§6: all other metadata is out of scope for matching). -/
structure PackageRecord where
  version : ℕ
  build_number : ℕ
deriving DecidableEq

/-- A single AND group in a `MatchSpecConstraints`
(`MatchSpecElement` in the source). -/
structure MatchSpecElement where
  version : CRange
  build_number : CRange
deriving DecidableEq

namespace MatchSpecElement

/-- `MatchSpecElement::none()`: matches nothing (canonical empty element). -/
def none : MatchSpecElement := ⟨CRange.none, CRange.none⟩

/-- `MatchSpecElement::any()`: matches anything. -/
def any : MatchSpecElement := ⟨CRange.any, CRange.any⟩

/-- `MatchSpecElement::intersection`: field-wise intersection, collapsing
to the canonical `none()` when either field becomes empty. -/
def intersection (a b : MatchSpecElement) : MatchSpecElement :=
  let version := a.version.intersection b.version
  let build_number := a.build_number.intersection b.build_number
  if version = CRange.none ∨ build_number = CRange.none then
    MatchSpecElement.none
  else
    ⟨version, build_number⟩

/-- `MatchSpecElement::contains`: both fields must match. -/
def contains (e : MatchSpecElement) (p : PackageRecord) : Bool :=
  e.version.contains p.version && e.build_number.contains p.build_number

theorem none_contains (p : PackageRecord) :
    MatchSpecElement.none.contains p = false := by
  simp [contains, none, CRange.contains_none]

theorem any_contains (p : PackageRecord) :
    MatchSpecElement.any.contains p = true := by
  simp [contains, any, CRange.contains_any]

theorem intersection_contains (a b : MatchSpecElement) (p : PackageRecord) :
    (a.intersection b).contains p = (a.contains p && b.contains p) := by
  unfold intersection
  by_cases h : a.version.intersection b.version = CRange.none ∨
      a.build_number.intersection b.build_number = CRange.none
  · simp only [h, if_true, none_contains]
    rcases h with h | h
    · have hv := CRange.contains_intersection a.version b.version p.version
      rw [h, CRange.contains_none] at hv
      simp only [contains]
      cases ha : a.version.contains p.version <;>
        cases hb : b.version.contains p.build_number <;>
        simp_all [Bool.and_assoc, Bool.and_comm, Bool.and_left_comm]
    · have hb := CRange.contains_intersection a.build_number b.build_number
        p.build_number
      rw [h, CRange.contains_none] at hb
      simp only [contains]
      cases h1 : a.build_number.contains p.build_number <;>
        cases h2 : b.build_number.contains p.build_number <;>
        simp_all [Bool.and_assoc, Bool.and_comm, Bool.and_left_comm]
  · simp only [h, if_false, contains, CRange.contains_intersection]
    cases a.version.contains p.version <;>
      cases b.version.contains p.version <;>
      cases a.build_number.contains p.build_number <;>
      cases b.build_number.contains p.build_number <;> rfl

/-- An element is canonical when it is the canonical `none()` or has two
non-empty fields; all elements the operations build are canonical. -/
def Canonical (e : MatchSpecElement) : Prop :=
  e = MatchSpecElement.none ∨
    (e.version ≠ CRange.none ∧ e.build_number ≠ CRange.none)

theorem canonical_intersection (a b : MatchSpecElement) :
    (a.intersection b).Canonical := by
  unfold intersection Canonical
  by_cases h : a.version.intersection b.version = CRange.none ∨
      a.build_number.intersection b.build_number = CRange.none
  · simp [h]
  · push_neg at h
    simp [h, h.1, h.2]

theorem canonical_none : MatchSpecElement.none.Canonical := Or.inl rfl

theorem eq_none_of_canonical_of_forall_not_contains {e : MatchSpecElement}
    (hc : e.Canonical) (h : ∀ p, e.contains p = false) :
    e = MatchSpecElement.none := by
  rcases hc with hc | ⟨hv, hb⟩
  · exact hc
  · obtain ⟨v, hv2⟩ := CRange.exists_contains_of_ne_none hv
    obtain ⟨b, hb2⟩ := CRange.exists_contains_of_ne_none hb
    have := h ⟨v, b⟩
    simp [contains, hv2, hb2] at this

theorem intersection_with_any {e : MatchSpecElement}
    (hv : e.version ≠ CRange.none) (hb : e.build_number ≠ CRange.none) :
    e.intersection MatchSpecElement.any = e := by
  unfold intersection
  simp only [any, CRange.intersection_any]
  simp [hv, hb]

theorem ne_none_of_contains {e : MatchSpecElement} {p : PackageRecord}
    (h : e.contains p = true) : e ≠ MatchSpecElement.none := by
  intro he
  rw [he, none_contains] at h
  exact Bool.false_ne_true h

end MatchSpecElement

/-- Represents several constraints as a DNF
(`MatchSpecConstraints` in the source). -/
structure MatchSpecConstraints where
  groups : List MatchSpecElement
deriving DecidableEq

namespace MatchSpecConstraints

/-- Modelled from the spec: the content-derived surrogate sort key used to
put groups in canonical order (spec §4.3 step 5 / §9).  The source hashes
each group with `DefaultHasher`; following §9's recommendation the model
uses an injective deterministic encoding of the group's content instead,
ignoring hash collisions as §9 allows. -/
def encFinset (s : Finset ℕ) : ℕ := s.sum (fun i => 2 ^ i)

/-- Encoding of a range for the canonical sort key. -/
def encCRange : CRange → ℕ
  | .fin s => 2 * encFinset s
  | .cof s => 2 * encFinset s + 1

/-- Encoding of a whole group for the canonical sort key. -/
def elemKey (e : MatchSpecElement) : ℕ :=
  Nat.pair (encCRange e.version) (encCRange e.build_number)

/-- `sort_by_cached_key` on the content-derived key: the stable sort that
both `complement` and `intersection` apply before returning. -/
def sortGroups (l : List MatchSpecElement) : List MatchSpecElement :=
  l.insertionSort (fun a b => elemKey a ≤ elemKey b)

/-- `VersionSet::empty()`: zero groups. -/
def empty : MatchSpecConstraints := ⟨[]⟩

/-- `VersionSet::full()`: exactly one `any()` group. -/
def full : MatchSpecConstraints := ⟨[MatchSpecElement.any]⟩

/-- `VersionSet::singleton(v)`: one group of equality ranges on the
candidate's version and build number. -/
def singleton (v : PackageRecord) : MatchSpecConstraints :=
  ⟨[⟨CRange.equal v.version, CRange.equal v.build_number⟩]⟩

/-- Per-group alternative list built inside `complement`: the negated
version (build left universal) and/or the negated build number (version
left universal), each pushed only when the negated range is non-empty. -/
def groupAlternatives (e : MatchSpecElement) : List MatchSpecElement :=
  (if e.version.negate ≠ CRange.none
    then [⟨e.version.negate, CRange.any⟩] else []) ++
  (if e.build_number.negate ≠ CRange.none
    then [⟨CRange.any, e.build_number.negate⟩] else [])

/-- `itertools::multi_cartesian_product`: all ways of picking one entry
from each list, first list varying slowest. -/
def cartProd : List (List MatchSpecElement) → List (List MatchSpecElement)
  | [] => [[]]
  | l :: ls => l.flatMap (fun a => (cartProd ls).map (fun p => a :: p))

/-- `Iterator::reduce` with `MatchSpecElement::intersection`: folds a
picked combination into a single candidate output group. -/
def reduceIntersection : List MatchSpecElement → MatchSpecElement
  | [] => MatchSpecElement.none
  | e :: es => es.foldl MatchSpecElement.intersection e

/-- `VersionSet::complement()`: `full()` for the empty set, otherwise the
De Morgan expansion — the cartesian product over the per-group alternative
lists, each combination reduced by intersection; `full()` as soon as a
combination yields `any()`; otherwise the non-`none()` combinations,
deduplicated and sorted by the canonical key. -/
def complement (x : MatchSpecConstraints) : MatchSpecConstraints :=
  match x.groups with
  | [] => ⟨[MatchSpecElement.any]⟩
  | g :: gs =>
    let products := (cartProd ((g :: gs).map groupAlternatives)).map
      reduceIntersection
    if products.any (fun e => e = MatchSpecElement.any) then
      ⟨[MatchSpecElement.any]⟩
    else
      ⟨sortGroups ((products.filter
        (fun e => e ≠ MatchSpecElement.none)).dedup)⟩

/-- `VersionSet::intersection()`: distribute AND over OR — the pairwise
group intersections with `none()` results filtered out; `full()` when an
`any()` group survives; otherwise the surviving groups sorted by the
canonical key (the source applies no deduplication here). -/
def intersection (x y : MatchSpecConstraints) : MatchSpecConstraints :=
  let groups := (x.groups.flatMap
    (fun a => y.groups.map (fun b => a.intersection b))).filter
    (fun g => g ≠ MatchSpecElement.none)
  if groups.any (fun g => g = MatchSpecElement.any) then
    ⟨[MatchSpecElement.any]⟩
  else
    ⟨sortGroups groups⟩

/-- `VersionSet::contains()`: some group matches the candidate. -/
def contains (x : MatchSpecConstraints) (p : PackageRecord) : Bool :=
  x.groups.any (fun g => g.contains p)

/-- Modelled from the spec: the derived union (spec §4.5),
`union(x, y) = complement(intersection(complement(x), complement(y)))`
(the `VersionSet` trait default, not implemented in the source file). -/
def union (x y : MatchSpecConstraints) : MatchSpecConstraints :=
  complement (intersection (complement x) (complement y))

/-- The `Display` implementation: renders the constant string. -/
def toDisplayText (_x : MatchSpecConstraints) : String := "bla"

/-- Well-formedness of a constraint set, as the spec states it (§3):
no group with an empty field (empty groups are pruned and canonicalized
during every construction), normalization to the single `any()` group when
one is present, and the groups held in canonical sorted order (which also
forces them to be duplicate-free, the keys being strictly increasing). -/
def WellFormed (x : MatchSpecConstraints) : Prop :=
  (∀ g ∈ x.groups,
    g.version ≠ CRange.none ∧ g.build_number ≠ CRange.none) ∧
  (MatchSpecElement.any ∈ x.groups → x.groups = [MatchSpecElement.any]) ∧
  x.groups.Pairwise (fun a b => elemKey a < elemKey b)

instance (x : MatchSpecConstraints) : Decidable (WellFormed x) := by
  unfold WellFormed
  infer_instance

theorem any_ne_none : MatchSpecElement.any ≠ MatchSpecElement.none := by
  intro h
  have := congrArg MatchSpecElement.version h
  simp [MatchSpecElement.any, MatchSpecElement.none, CRange.any,
    CRange.none] at this

theorem mem_sortGroups {e : MatchSpecElement} {l : List MatchSpecElement} :
    e ∈ sortGroups l ↔ e ∈ l :=
  (List.perm_insertionSort _ l).mem_iff

theorem any_congr_mem {l1 l2 : List MatchSpecElement}
    (h : ∀ a, a ∈ l1 ↔ a ∈ l2) (f : MatchSpecElement → Bool) :
    l1.any f = l2.any f := by
  cases h2 : l2.any f
  · rw [List.any_eq_false] at h2 ⊢
    intro a ha
    exact h2 a ((h a).1 ha)
  · rw [List.any_eq_true] at h2 ⊢
    obtain ⟨a, ha, hfa⟩ := h2
    exact ⟨a, (h a).2 ha, hfa⟩

theorem mem_cartProd {L : List (List MatchSpecElement)}
    {s : List MatchSpecElement} :
    s ∈ cartProd L ↔ List.Forall₂ (fun a l => a ∈ l) s L := by
  induction L generalizing s with
  | nil =>
    simp [cartProd, List.forall₂_nil_right_iff]
  | cons l ls ih =>
    simp only [cartProd, List.mem_flatMap, List.mem_map]
    constructor
    · rintro ⟨a, ha, q, hq, rfl⟩
      exact List.Forall₂.cons ha (ih.1 hq)
    · intro h
      cases h with
      | cons ha hq => exact ⟨_, ha, _, ih.2 hq, rfl⟩

theorem forall2_exists_left {r : MatchSpecElement → List MatchSpecElement → Prop}
    {l1 : List MatchSpecElement} {l2 : List (List MatchSpecElement)}
    (h : List.Forall₂ r l1 l2) :
    ∀ b ∈ l2, ∃ a ∈ l1, r a b := by
  induction h with
  | nil => intro b hb; exact absurd hb (List.not_mem_nil b)
  | cons hab hrest ih =>
    intro b hb
    rcases List.mem_cons.1 hb with hb | hb
    · exact ⟨_, List.mem_cons_self .., hb ▸ hab⟩
    · obtain ⟨a, ha, hr⟩ := ih b hb
      exact ⟨a, List.mem_cons_of_mem _ ha, hr⟩

theorem contains_foldl_intersection (es : List MatchSpecElement)
    (e : MatchSpecElement) (p : PackageRecord) :
    (es.foldl MatchSpecElement.intersection e).contains p =
      (e.contains p && es.all (fun f => f.contains p)) := by
  induction es generalizing e with
  | nil => simp
  | cons a as ih =>
    simp [ih, MatchSpecElement.intersection_contains, Bool.and_assoc]

theorem contains_reduceIntersection (e : MatchSpecElement)
    (es : List MatchSpecElement) (p : PackageRecord) :
    (reduceIntersection (e :: es)).contains p =
      (e :: es).all (fun f => f.contains p) := by
  simp [reduceIntersection, contains_foldl_intersection]

theorem canonical_foldl_intersection (es : List MatchSpecElement)
    (e : MatchSpecElement) (he : e.Canonical) :
    (es.foldl MatchSpecElement.intersection e).Canonical := by
  induction es generalizing e with
  | nil => exact he
  | cons a as ih => exact ih _ (MatchSpecElement.canonical_intersection e a)

theorem mem_groupAlternatives {f g : MatchSpecElement} :
    f ∈ groupAlternatives g ↔
      (g.version.negate ≠ CRange.none ∧
        f = ⟨g.version.negate, CRange.any⟩) ∨
      (g.build_number.negate ≠ CRange.none ∧
        f = ⟨CRange.any, g.build_number.negate⟩) := by
  unfold groupAlternatives
  split_ifs with h1 h2 <;> simp_all

theorem canonical_of_mem_groupAlternatives {f g : MatchSpecElement}
    (hf : f ∈ groupAlternatives g) : f.Canonical := by
  rcases mem_groupAlternatives.1 hf with ⟨hv, rfl⟩ | ⟨hb, rfl⟩
  · exact Or.inr ⟨hv, by simp [CRange.any, CRange.none]⟩
  · exact Or.inr ⟨by simp [CRange.any, CRange.none], hb⟩

/-- If a picked alternative of `g` matches a candidate, `g` itself does
not: the core De Morgan step of the complement algorithm. -/
theorem not_contains_of_alternative {f g : MatchSpecElement}
    (hf : f ∈ groupAlternatives g) (p : PackageRecord)
    (h : f.contains p = true) : g.contains p = false := by
  rcases mem_groupAlternatives.1 hf with ⟨_, rfl⟩ | ⟨_, rfl⟩
  · simp only [MatchSpecElement.contains, CRange.contains_negate,
      Bool.and_eq_true, Bool.not_eq_eq_eq_not, Bool.not_true] at h ⊢
    simp [h.1]
  · simp only [MatchSpecElement.contains, CRange.contains_negate,
      Bool.and_eq_true, Bool.not_eq_eq_eq_not, Bool.not_true] at h ⊢
    simp [h.2]

/-- If `g` does not match a candidate, some alternative of `g` does:
the converse De Morgan step. -/
theorem exists_alternative {g : MatchSpecElement} (p : PackageRecord)
    (h : g.contains p = false) :
    ∃ f ∈ groupAlternatives g, f.contains p = true := by
  rw [MatchSpecElement.contains, Bool.and_eq_false_iff] at h
  rcases h with h | h
  · have hneg : g.version.negate.contains p.version = true := by
      rw [CRange.contains_negate, h]
      rfl
    have hne : g.version.negate ≠ CRange.none := by
      intro he
      rw [he, CRange.contains_none] at hneg
      exact Bool.false_ne_true hneg
    refine ⟨⟨g.version.negate, CRange.any⟩,
      mem_groupAlternatives.2 (Or.inl ⟨hne, rfl⟩), ?_⟩
    simp [MatchSpecElement.contains, hneg, CRange.contains_any]
  · have hneg : g.build_number.negate.contains p.build_number = true := by
      rw [CRange.contains_negate, h]
      rfl
    have hne : g.build_number.negate ≠ CRange.none := by
      intro he
      rw [he, CRange.contains_none] at hneg
      exact Bool.false_ne_true hneg
    refine ⟨⟨CRange.any, g.build_number.negate⟩,
      mem_groupAlternatives.2 (Or.inr ⟨hne, rfl⟩), ?_⟩
    simp [MatchSpecElement.contains, hneg, CRange.contains_any]

/-- A matching pick from every alternative list assembles into a matching
combination of the cartesian product. -/
theorem exists_mem_cartProd {L : List (List MatchSpecElement)}
    (p : PackageRecord)
    (h : ∀ l ∈ L, ∃ a ∈ l, a.contains p = true) :
    ∃ s ∈ cartProd L, s.all (fun f => f.contains p) = true := by
  induction L with
  | nil => exact ⟨[], by simp [cartProd], rfl⟩
  | cons l ls ih =>
    obtain ⟨a, ha, hfa⟩ := h l (List.mem_cons_self ..)
    obtain ⟨s, hs, hall⟩ := ih (fun m hm => h m (List.mem_cons_of_mem _ hm))
    refine ⟨a :: s, mem_cartProd.2 (List.Forall₂.cons ha (mem_cartProd.1 hs)), ?_⟩
    simp only [List.all_cons, hfa, hall, Bool.and_self]

theorem contains_mk_sorted_dedup (l : List MatchSpecElement)
    (p : PackageRecord) :
    contains ⟨sortGroups l.dedup⟩ p = l.any (fun f => f.contains p) := by
  rw [contains]
  exact any_congr_mem (fun a => mem_sortGroups.trans List.mem_dedup) _

/-- Semantic correctness of `complement`: a candidate is matched by the
complement exactly when it is not matched by the argument (for every
input, well-formed or not). -/
theorem contains_complement (x : MatchSpecConstraints) (p : PackageRecord) :
    (complement x).contains p = !(x.contains p) := by
  obtain ⟨gs⟩ := x
  cases gs with
  | nil => simp [complement, contains, MatchSpecElement.any_contains]
  | cons g gs =>
    simp only [complement]
    split_ifs with hany
    · rw [List.any_eq_true] at hany
      obtain ⟨e, he, heq⟩ := hany
      rw [decide_eq_true_eq] at heq
      subst heq
      obtain ⟨perm, hperm, hpe⟩ := List.mem_map.1 he
      have hx : (⟨g :: gs⟩ : MatchSpecConstraints).contains p = false := by
        rw [contains, List.any_eq_false]
        intro gi hgi
        have hF := mem_cartProd.1 hperm
        obtain ⟨ei, hei_mem, hei_alt⟩ := forall2_exists_left hF
          (groupAlternatives gi) (List.mem_map_of_mem _ hgi)
        have hall : perm.all (fun f => f.contains p) = true := by
          cases perm with
          | nil => rfl
          | cons e0 es =>
            rw [← contains_reduceIntersection e0 es p, hpe,
              MatchSpecElement.any_contains]
        have hc : ei.contains p = true := List.all_eq_true.1 hall ei hei_mem
        simp [not_contains_of_alternative hei_alt p hc]
      rw [hx]
      simp [contains, MatchSpecElement.any_contains]
    · rw [contains_mk_sorted_dedup]
      cases hx : (⟨g :: gs⟩ : MatchSpecConstraints).contains p with
      | true =>
        rw [Bool.not_true, List.any_eq_false]
        intro e he
        rw [List.mem_filter] at he
        obtain ⟨perm, hperm, hpe⟩ := List.mem_map.1 he.1
        intro hc
        have hF := mem_cartProd.1 hperm
        rw [contains, List.any_eq_true] at hx
        obtain ⟨gi, hgi, hgic⟩ := hx
        obtain ⟨ei, hei_mem, hei_alt⟩ := forall2_exists_left hF
          (groupAlternatives gi) (List.mem_map_of_mem _ hgi)
        have hall : perm.all (fun f => f.contains p) = true := by
          cases perm with
          | nil => rfl
          | cons e0 es =>
            rw [← contains_reduceIntersection e0 es p, hpe]
            exact hc
        have heic : ei.contains p = true := List.all_eq_true.1 hall ei hei_mem
        rw [not_contains_of_alternative hei_alt p heic] at hgic
        exact Bool.false_ne_true hgic
      | false =>
        rw [Bool.not_false, List.any_eq_true]
        rw [contains, List.any_eq_false] at hx
        have hpick : ∀ l ∈ (g :: gs).map groupAlternatives,
            ∃ a ∈ l, a.contains p = true := by
          intro l hl
          obtain ⟨gi, hgi, rfl⟩ := List.mem_map.1 hl
          exact exists_alternative p (Bool.eq_false_iff.2 (hx gi hgi))
        obtain ⟨s, hs, hall⟩ := exists_mem_cartProd p hpick
        refine ⟨reduceIntersection s, ?_, ?_⟩
        · rw [List.mem_filter]
          refine ⟨List.mem_map_of_mem _ hs, ?_⟩
          rw [decide_eq_true_eq]
          intro hn
          obtain ⟨a, s2, rfl⟩ : ∃ a s2, s = a :: s2 := by
            cases mem_cartProd.1 hs with
            | cons h1 h2 => exact ⟨_, _, rfl⟩
          have hcr := contains_reduceIntersection a s2 p
          rw [hn, MatchSpecElement.none_contains] at hcr
          rw [← hcr] at hall
          exact Bool.false_ne_true hall
        · obtain ⟨a, s2, rfl⟩ : ∃ a s2, s = a :: s2 := by
            cases mem_cartProd.1 hs with
            | cons h1 h2 => exact ⟨_, _, rfl⟩
          rw [contains_reduceIntersection a s2 p]
          exact hall

/-- Semantic correctness of `intersection`: a candidate is matched by the
intersection exactly when it is matched by both arguments (for every pair
of inputs, well-formed or not). -/
theorem contains_intersection_sets (x y : MatchSpecConstraints)
    (p : PackageRecord) :
    (intersection x y).contains p = (x.contains p && y.contains p) := by
  simp only [intersection]
  split_ifs with hany
  · rw [List.any_eq_true] at hany
    obtain ⟨e, he, heq⟩ := hany
    rw [decide_eq_true_eq] at heq
    rw [List.mem_filter] at he
    obtain ⟨a, ha, hm⟩ := List.mem_flatMap.1 he.1
    obtain ⟨b, hb, rfl⟩ := List.mem_map.1 hm
    have hc := MatchSpecElement.intersection_contains a b p
    rw [heq, MatchSpecElement.any_contains] at hc
    have hc2 : (a.contains p && b.contains p) = true := hc.symm
    rw [Bool.and_eq_true] at hc2
    have hx : x.contains p = true := by
      rw [contains, List.any_eq_true]
      exact ⟨a, ha, hc2.1⟩
    have hy : y.contains p = true := by
      rw [contains, List.any_eq_true]
      exact ⟨b, hb, hc2.2⟩
    rw [hx, hy]
    simp [contains, MatchSpecElement.any_contains]
  · have hleft : contains ⟨sortGroups ((x.groups.flatMap
        (fun a => y.groups.map (fun b => a.intersection b))).filter
        (fun g => g ≠ MatchSpecElement.none))⟩ p =
        ((x.groups.flatMap
          (fun a => y.groups.map (fun b => a.intersection b))).filter
          (fun g => g ≠ MatchSpecElement.none)).any
          (fun f => f.contains p) := by
      rw [contains]
      exact any_congr_mem (fun a => mem_sortGroups) _
    rw [hleft]
    cases hxy : (x.contains p && y.contains p) with
    | true =>
      rw [Bool.and_eq_true] at hxy
      obtain ⟨hx, hy⟩ := hxy
      rw [contains, List.any_eq_true] at hx hy
      obtain ⟨a, ha, hap⟩ := hx
      obtain ⟨b, hb, hbp⟩ := hy
      rw [List.any_eq_true]
      refine ⟨a.intersection b, ?_, ?_⟩
      · rw [List.mem_filter]
        refine ⟨List.mem_flatMap.2 ⟨a, ha, List.mem_map_of_mem _ hb⟩, ?_⟩
        rw [decide_eq_true_eq]
        apply MatchSpecElement.ne_none_of_contains (p := p)
        rw [MatchSpecElement.intersection_contains, hap, hbp]
        rfl
      · rw [MatchSpecElement.intersection_contains, hap, hbp]
        rfl
    | false =>
      rw [List.any_eq_false]
      intro e he
      rw [List.mem_filter] at he
      obtain ⟨a, ha, hm⟩ := List.mem_flatMap.1 he.1
      obtain ⟨b, hb, rfl⟩ := List.mem_map.1 hm
      rw [MatchSpecElement.intersection_contains]
      intro hc
      rw [Bool.and_eq_true] at hc
      have hx : x.contains p = true := by
        rw [contains, List.any_eq_true]
        exact ⟨a, ha, hc.1⟩
      have hy : y.contains p = true := by
        rw [contains, List.any_eq_true]
        exact ⟨b, hb, hc.2⟩
      rw [hx, hy] at hxy
      simp at hxy

/-- Excluded middle, structurally: every pairwise product of a set with
its complement collapses to the canonical `none()` and is filtered out,
so the result is exactly `empty()`. -/
theorem intersection_complement_eq_empty (x : MatchSpecConstraints) :
    intersection x (complement x) = empty := by
  have hnone : ∀ a ∈ x.groups, ∀ b ∈ (complement x).groups,
      a.intersection b = MatchSpecElement.none := by
    intro a ha b hb
    apply MatchSpecElement.eq_none_of_canonical_of_forall_not_contains
      (MatchSpecElement.canonical_intersection a b)
    intro p
    rw [MatchSpecElement.intersection_contains]
    cases hbp : b.contains p with
    | false => simp
    | true =>
      have hcc : (complement x).contains p = true := by
        rw [contains, List.any_eq_true]
        exact ⟨b, hb, hbp⟩
      rw [contains_complement] at hcc
      have hx : x.contains p = false := by
        cases h2 : x.contains p
        · rfl
        · rw [h2] at hcc
          exact absurd hcc (by simp)
      have hap : a.contains p = false := by
        rw [contains, List.any_eq_false] at hx
        exact Bool.eq_false_iff.2 (hx a ha)
      simp [hap]
  simp only [intersection]
  have hfil : (x.groups.flatMap
      (fun a => (complement x).groups.map
        (fun b => a.intersection b))).filter
      (fun g => g ≠ MatchSpecElement.none) = [] := by
    rw [List.filter_eq_nil_iff]
    intro e he
    obtain ⟨a, ha, hm⟩ := List.mem_flatMap.1 he
    obtain ⟨b, hb, rfl⟩ := List.mem_map.1 hm
    rw [hnone a ha b hb]
    simp
  rw [hfil]
  rfl

/-- Complement of `empty()` is `full()` — the direct special case. -/
theorem complement_empty : complement empty = full := rfl

/-- The derived union of a set with its complement is `full()`. -/
theorem union_complement_eq_full (x : MatchSpecConstraints) :
    union x (complement x) = full := by
  rw [union, intersection_complement_eq_empty (complement x)]
  rfl

/-- `full()` is an identity for `intersection` on well-formed inputs. -/
theorem intersection_full_eq_self {x : MatchSpecConstraints}
    (h : WellFormed x) : intersection x full = x := by
  obtain ⟨gs⟩ := x
  obtain ⟨hfields, hnorm, hsorted⟩ := h
  simp only at hfields hnorm hsorted
  have hflat : ∀ l : List MatchSpecElement,
      l.flatMap (fun a => full.groups.map (fun b => a.intersection b)) =
      l.map (fun a => a.intersection MatchSpecElement.any) := by
    intro l
    induction l with
    | nil => rfl
    | cons a as ih => simp [full] at ih ⊢; exact ih
  have hmap : gs.map
      (fun a => a.intersection MatchSpecElement.any) = gs := by
    have hcongr := List.map_congr_left
      (fun a ha => MatchSpecElement.intersection_with_any
        (hfields a ha).1 (hfields a ha).2)
    rw [hcongr]
    simp
  have hfil : (gs.flatMap
      (fun a => full.groups.map (fun b => a.intersection b))).filter
      (fun g => g ≠ MatchSpecElement.none) = gs := by
    rw [hflat, hmap, List.filter_eq_self]
    intro a ha
    rw [decide_eq_true_eq]
    intro hn
    have := (hfields a ha).1
    rw [hn] at this
    exact this rfl
  simp only [intersection]
  rw [hfil]
  split_ifs with hany
  · rw [List.any_eq_true] at hany
    obtain ⟨e, he, heq⟩ := hany
    rw [decide_eq_true_eq] at heq
    subst heq
    rw [hnorm he]
  · have hs : List.Sorted (fun a b => elemKey a ≤ elemKey b) gs :=
      hsorted.imp (fun h2 => le_of_lt h2)
    rw [sortGroups, hs.insertionSort_eq]

/-- `empty()` is absorbing for `intersection` (for every input). -/
theorem intersection_empty_eq_empty (x : MatchSpecConstraints) :
    intersection x empty = empty := by
  have hflat : x.groups.flatMap
      (fun a => empty.groups.map (fun b => a.intersection b)) = [] := by
    induction x.groups with
    | nil => rfl
    | cons a as ih => simp [empty] at ih ⊢
  simp only [intersection]
  rw [hflat]
  rfl

/-- The group list produced by `complement` is duplicate-free. -/
theorem nodup_complement_groups (x : MatchSpecConstraints) :
    (complement x).groups.Nodup := by
  obtain ⟨gs⟩ := x
  cases gs with
  | nil => simp [complement]
  | cons g gs =>
    simp only [complement]
    split_ifs with hany
    · simp
    · exact ((List.perm_insertionSort _ _).nodup_iff).2 (List.nodup_dedup _)

/-- Claim C1, as stated, is false: for this well-formed two-group set
with overlapping version and build ranges, `complement(complement(x))`
contains extra cross-product groups and is not structurally equal to
`x`. -/
theorem claim1_counterexample :
    WellFormed ⟨[⟨CRange.fin {0, 1}, CRange.fin {0, 1}⟩,
      ⟨CRange.fin {1, 2}, CRange.fin {1, 2}⟩]⟩ ∧
    complement (complement ⟨[⟨CRange.fin {0, 1}, CRange.fin {0, 1}⟩,
      ⟨CRange.fin {1, 2}, CRange.fin {1, 2}⟩]⟩) ≠
      ⟨[⟨CRange.fin {0, 1}, CRange.fin {0, 1}⟩,
        ⟨CRange.fin {1, 2}, CRange.fin {1, 2}⟩]⟩ := by
  decide

/-- Claim C1 as amended: for every well-formed constraint set `x`,
`complement(complement(x))` is semantically equal to `x` — it contains
exactly the same candidates (structural equality can fail when groups
overlap). -/
theorem claim1_theorem (x : MatchSpecConstraints) (_h : WellFormed x)
    (p : PackageRecord) :
    (complement (complement x)).contains p = x.contains p := by
  rw [contains_complement, contains_complement, Bool.not_not]

/-- Witness for the amended claim C1 at a concrete well-formed input. -/
theorem claim1_witness :
    WellFormed full ∧
    (complement (complement full)).contains ⟨0, 0⟩ = full.contains ⟨0, 0⟩ :=
  ⟨by decide, claim1_theorem full (by decide) ⟨0, 0⟩⟩

/-- Claim C2, as stated, is false: for this well-formed set of two
overlapping groups, `intersection(x, x)` keeps the two cross products
(one of them twice — no deduplication) and is not structurally equal to
`x`. -/
theorem claim2_counterexample :
    WellFormed ⟨[⟨CRange.fin {0, 1}, CRange.any⟩,
      ⟨CRange.fin {1, 2}, CRange.any⟩]⟩ ∧
    intersection ⟨[⟨CRange.fin {0, 1}, CRange.any⟩,
        ⟨CRange.fin {1, 2}, CRange.any⟩]⟩
      ⟨[⟨CRange.fin {0, 1}, CRange.any⟩,
        ⟨CRange.fin {1, 2}, CRange.any⟩]⟩ ≠
      ⟨[⟨CRange.fin {0, 1}, CRange.any⟩,
        ⟨CRange.fin {1, 2}, CRange.any⟩]⟩ := by
  decide

/-- Claim C2 as amended: for every well-formed constraint set `x`,
`intersection(x, x)` is semantically equal to `x` — it contains exactly
the same candidates (structural idempotence can fail when groups
overlap). -/
theorem claim2_theorem (x : MatchSpecConstraints) (_h : WellFormed x)
    (p : PackageRecord) :
    (intersection x x).contains p = x.contains p := by
  rw [contains_intersection_sets, Bool.and_self]

/-- Witness for the amended claim C2 at a concrete well-formed input. -/
theorem claim2_witness :
    WellFormed full ∧
    (intersection full full).contains ⟨1, 1⟩ = full.contains ⟨1, 1⟩ :=
  ⟨by decide, claim2_theorem full (by decide) ⟨1, 1⟩⟩

/-- Claim C3, as stated, is false: `intersection` applies no
deduplication, and on these well-formed inputs (two overlapping version
groups against a common refinement) it returns the same surviving group
twice. -/
theorem claim3_counterexample :
    WellFormed ⟨[⟨CRange.fin {0, 1}, CRange.any⟩,
      ⟨CRange.fin {1, 2}, CRange.any⟩]⟩ ∧
    WellFormed ⟨[⟨CRange.fin {1}, CRange.any⟩]⟩ ∧
    ¬ (intersection ⟨[⟨CRange.fin {0, 1}, CRange.any⟩,
        ⟨CRange.fin {1, 2}, CRange.any⟩]⟩
      ⟨[⟨CRange.fin {1}, CRange.any⟩]⟩).groups.Nodup := by
  decide

/-- Claim C3 as amended: `empty`, `full`, `singleton` and `complement`
always produce a duplicate-free group sequence; `intersection` does not
deduplicate its surviving groups. -/
theorem claim3_theorem :
    (∀ x : MatchSpecConstraints, (complement x).groups.Nodup) ∧
    empty.groups.Nodup ∧ full.groups.Nodup ∧
    (∀ p : PackageRecord, (singleton p).groups.Nodup) :=
  ⟨nodup_complement_groups, by simp [empty], by simp [full],
    fun p => by simp [singleton]⟩

/-- Claim C4: containment under complement —
`complement(x).contains(c) == !x.contains(c)`. -/
theorem claim4_theorem (x : MatchSpecConstraints) (_h : WellFormed x)
    (p : PackageRecord) :
    (complement x).contains p = !(x.contains p) :=
  contains_complement x p

/-- Witness for claim C4 at a concrete well-formed input. -/
theorem claim4_witness :
    WellFormed (singleton ⟨1, 2⟩) ∧
    (complement (singleton ⟨1, 2⟩)).contains ⟨1, 2⟩ =
      !((singleton ⟨1, 2⟩).contains ⟨1, 2⟩) :=
  ⟨by decide, claim4_theorem (singleton ⟨1, 2⟩) (by decide) ⟨1, 2⟩⟩

/-- Claim C5: containment under intersection —
`intersection(x, y).contains(c) == x.contains(c) && y.contains(c)`. -/
theorem claim5_theorem (x y : MatchSpecConstraints)
    (_hx : WellFormed x) (_hy : WellFormed y) (p : PackageRecord) :
    (intersection x y).contains p = (x.contains p && y.contains p) :=
  contains_intersection_sets x y p

/-- Witness for claim C5 at concrete well-formed inputs. -/
theorem claim5_witness :
    (WellFormed (singleton ⟨1, 2⟩) ∧ WellFormed full) ∧
    (intersection (singleton ⟨1, 2⟩) full).contains ⟨1, 2⟩ =
      ((singleton ⟨1, 2⟩).contains ⟨1, 2⟩ && full.contains ⟨1, 2⟩) :=
  ⟨⟨by decide, by decide⟩,
    claim5_theorem (singleton ⟨1, 2⟩) full (by decide) (by decide) ⟨1, 2⟩⟩

/-- Claim C6: excluded middle —
`intersection(x, complement(x)) == empty()` structurally. -/
theorem claim6_theorem (x : MatchSpecConstraints) (_h : WellFormed x) :
    intersection x (complement x) = empty :=
  intersection_complement_eq_empty x

/-- Witness for claim C6 at a concrete well-formed input. -/
theorem claim6_witness :
    WellFormed (singleton ⟨1, 2⟩) ∧
    intersection (singleton ⟨1, 2⟩) (complement (singleton ⟨1, 2⟩)) =
      empty :=
  ⟨by decide, claim6_theorem (singleton ⟨1, 2⟩) (by decide)⟩

/-- Claim C7: totality — `union(x, complement(x)) == full()` with the
derived union `complement(intersection(complement(x), complement(y)))`. -/
theorem claim7_theorem (x : MatchSpecConstraints) (_h : WellFormed x) :
    union x (complement x) = full :=
  union_complement_eq_full x

/-- Witness for claim C7 at a concrete well-formed input. -/
theorem claim7_witness :
    WellFormed (singleton ⟨1, 2⟩) ∧
    union (singleton ⟨1, 2⟩) (complement (singleton ⟨1, 2⟩)) = full :=
  ⟨by decide, claim7_theorem (singleton ⟨1, 2⟩) (by decide)⟩

/-- Claim C8: `full()` is an identity and `empty()` an absorbing element
for `intersection`, structurally, on well-formed inputs. -/
theorem claim8_theorem (x : MatchSpecConstraints) (h : WellFormed x) :
    intersection x full = x ∧ intersection x empty = empty :=
  ⟨intersection_full_eq_self h, intersection_empty_eq_empty x⟩

/-- Witness for claim C8 at a concrete well-formed input. -/
theorem claim8_witness :
    WellFormed (singleton ⟨2, 3⟩) ∧
    (intersection (singleton ⟨2, 3⟩) full = singleton ⟨2, 3⟩ ∧
      intersection (singleton ⟨2, 3⟩) empty = empty) :=
  ⟨by decide, claim8_theorem (singleton ⟨2, 3⟩) (by decide)⟩

/-- Claim C9: singleton exactness — `singleton(c)` contains `c` and no
candidate differing in version or build number. -/
theorem claim9_theorem (c c2 : PackageRecord)
    (h : c2.version ≠ c.version ∨ c2.build_number ≠ c.build_number) :
    (singleton c).contains c = true ∧ (singleton c).contains c2 = false := by
  constructor
  · simp [singleton, contains, MatchSpecElement.contains, CRange.equal,
      CRange.contains]
  · rcases h with h | h <;>
      simp [singleton, contains, MatchSpecElement.contains, CRange.equal,
        CRange.contains, h]

/-- Witness for claim C9 at concrete candidates differing in build
number. -/
theorem claim9_witness :
    ((⟨1, 3⟩ : PackageRecord).version ≠ (⟨1, 2⟩ : PackageRecord).version ∨
      (⟨1, 3⟩ : PackageRecord).build_number ≠
        (⟨1, 2⟩ : PackageRecord).build_number) ∧
    ((singleton ⟨1, 2⟩).contains ⟨1, 2⟩ = true ∧
      (singleton ⟨1, 2⟩).contains ⟨1, 3⟩ = false) :=
  ⟨by decide, claim9_theorem ⟨1, 2⟩ ⟨1, 3⟩ (by decide)⟩

/-- Claim C10: the display rendering is the constant string "bla",
independent of the constraint set's groups. -/
theorem claim10_theorem (x y : MatchSpecConstraints) :
    toDisplayText x = "bla" ∧ toDisplayText x = toDisplayText y :=
  ⟨rfl, rfl⟩

end MatchSpecConstraints

end Rattler
